import Mathlib

/-!
Verification development for the `terseid` library (Rust).

The Rust sources are shallowly embedded: strings become `List Char`,
byte slices become `List Nat` (each entry a byte value), `u32`/`u64`/`usize`
become `Nat` with explicit modular reduction where the machine width matters,
and fallible functions return `Option`/`Except`.  Caller-supplied closures
(`seed_fn`, `exists`, `substring_match_fn`) are ordinary function arguments.
-/

namespace TerseId

/-- Shorthand: the character list underlying a string literal. -/
def str (s : String) : List Char := s.data

/-! ### ASCII character classes (mirroring Rust's `char` predicates) -/

/-- Mirrors Rust `char::is_ascii_digit`. -/
def isAsciiDigit (c : Char) : Bool := 48 ≤ c.toNat && c.toNat ≤ 57

/-- ASCII lowercase letter test (`'a'..='z'`). -/
def isAsciiLowerAlpha (c : Char) : Bool := 97 ≤ c.toNat && c.toNat ≤ 122

/-- ASCII uppercase letter test (`'A'..='Z'`). -/
def isAsciiUpperAlpha (c : Char) : Bool := 65 ≤ c.toNat && c.toNat ≤ 90

/-- ASCII lowercasing of one character; embeds the effect of Rust
`str::to_lowercase` on the ASCII range (non-ASCII characters are kept). -/
def lowerChar (c : Char) : Char :=
  if isAsciiUpperAlpha c then Char.ofNat (c.toNat + 32) else c

/-- Mirrors Rust `str::to_lowercase` (on the ASCII range). -/
def toLower (s : List Char) : List Char := s.map lowerChar

/-- ASCII whitespace test; embeds the whitespace class used by `str::trim`. -/
def isWhitespaceChar (c : Char) : Bool :=
  c = ' ' || c = '\t' || c = '\n' || c = '\r'

/-- Mirrors Rust `str::trim`: strip whitespace from both ends. -/
def trim (s : List Char) : List Char :=
  ((s.dropWhile isWhitespaceChar).reverse.dropWhile isWhitespaceChar).reverse

/-! ### src/hash.rs — SHA-256 digest, base36 encoding, fixed-length hash

`compute_hash` applies SHA-256 (the `sha2` crate) to the seed bytes and reads
the first 8 digest bytes as a big-endian `u64`.  The SHA-256 compression is
embedded below in full, over `Nat` with explicit `% 2^32` reductions.
-/

/-- 2^32, the modulus for 32-bit words. -/
def w32 : Nat := 4294967296

/-- 32-bit addition. -/
def add32 (a b : Nat) : Nat := (a + b) % w32

/-- 32-bit right rotation (argument assumed < 2^32). -/
def rotr32 (x n : Nat) : Nat := ((x >>> n) ||| (x <<< (32 - n))) % w32

/-- 32-bit complement. -/
def not32 (x : Nat) : Nat := x ^^^ 4294967295

/-- SHA-256 round constants (the 64 words of FIPS 180-4, in decimal). -/
def shaK : List Nat :=
  [1116352408, 1899447441, 3049323471, 3921009573,
   961987163, 1508970993, 2453635748, 2870763221,
   3624381080, 310598401, 607225278, 1426881987,
   1925078388, 2162078206, 2614888103, 3248222580,
   3835390401, 4022224774, 264347078, 604807628,
   770255983, 1249150122, 1555081692, 1996064986,
   2554220882, 2821834349, 2952996808, 3210313671,
   3336571891, 3584528711, 113926993, 338241895,
   666307205, 773529912, 1294757372, 1396182291,
   1695183700, 1986661051, 2177026350, 2456956037,
   2730485921, 2820302411, 3259730800, 3345764771,
   3516065817, 3600352804, 4094571909, 275423344,
   430227734, 506948616, 659060556, 883997877,
   958139571, 1322822218, 1537002063, 1747873779,
   1955562222, 2024104815, 2227730452, 2361852424,
   2428436474, 2756734187, 3204031479, 3329325298]

/-- SHA-256 working state: eight 32-bit words. -/
structure Digest8 where
  a : Nat
  b : Nat
  c : Nat
  d : Nat
  e : Nat
  f : Nat
  g : Nat
  h : Nat
deriving DecidableEq

/-- SHA-256 initial hash value (the 8 words of FIPS 180-4, in decimal). -/
def shaInit : Digest8 :=
  ⟨1779033703, 3144134277, 1013904242, 2773480762,
   1359893119, 2600822924, 528734635, 1541459225⟩

/-- Big-endian 8-byte encoding of a 64-bit value. -/
def be64 (v : Nat) : List Nat :=
  let v := v % 18446744073709551616
  [(v >>> 56) % 256, (v >>> 48) % 256, (v >>> 40) % 256, (v >>> 32) % 256,
   (v >>> 24) % 256, (v >>> 16) % 256, (v >>> 8) % 256, v % 256]

/-- SHA-256 message padding: `0x80`, zeros, then the bit length, so that the
total length is a multiple of 64 bytes. -/
def shaPad (msg : List Nat) : List Nat :=
  let n := msg.length
  let zeros := (119 - n % 64) % 64
  msg ++ [128] ++ List.replicate zeros 0 ++ be64 (8 * n)

/-- Pack bytes into big-endian 32-bit words (4 bytes per word). -/
def toWords : List Nat → List Nat
  | b0 :: b1 :: b2 :: b3 :: rest =>
      (((b0 % 256) <<< 24) ||| ((b1 % 256) <<< 16) ||| ((b2 % 256) <<< 8)
        ||| (b3 % 256)) :: toWords rest
  | _ => []

/-- One message-schedule extension step: append
`w[i-16] + s0(w[i-15]) + w[i-7] + s1(w[i-2])` to the schedule so far. -/
def scheduleStep (w : List Nat) : List Nat :=
  let n := w.length
  let s0 := rotr32 (w.getD (n - 15) 0) 7 ^^^ rotr32 (w.getD (n - 15) 0) 18
              ^^^ (w.getD (n - 15) 0 >>> 3)
  let s1 := rotr32 (w.getD (n - 2) 0) 17 ^^^ rotr32 (w.getD (n - 2) 0) 19
              ^^^ (w.getD (n - 2) 0 >>> 10)
  w ++ [(w.getD (n - 16) 0 + s0 + w.getD (n - 7) 0 + s1) % w32]

/-- The 64-word message schedule of one block. -/
def schedule (block : List Nat) : List Nat :=
  (List.range 48).foldl (fun w _ => scheduleStep w) (toWords block)

/-- One SHA-256 compression round. -/
def compressStep (st : Digest8) (kw : Nat × Nat) : Digest8 :=
  let s1 := rotr32 st.e 6 ^^^ rotr32 st.e 11 ^^^ rotr32 st.e 25
  let ch := (st.e &&& st.f) ^^^ (not32 st.e &&& st.g)
  let t1 := (st.h + s1 + ch + kw.1 + kw.2) % w32
  let s0 := rotr32 st.a 2 ^^^ rotr32 st.a 13 ^^^ rotr32 st.a 22
  let mj := (st.a &&& st.b) ^^^ (st.a &&& st.c) ^^^ (st.b &&& st.c)
  let t2 := (s0 + mj) % w32
  ⟨(t1 + t2) % w32, st.a, st.b, st.c, (st.d + t1) % w32, st.e, st.f, st.g⟩

/-- Process one 64-byte block. -/
def processBlock (st : Digest8) (block : List Nat) : Digest8 :=
  let f := (shaK.zip (schedule block)).foldl compressStep st
  ⟨add32 st.a f.a, add32 st.b f.b, add32 st.c f.c, add32 st.d f.d,
   add32 st.e f.e, add32 st.f f.f, add32 st.g f.g, add32 st.h f.h⟩

/-- Fold the compression function over consecutive 64-byte blocks;
structurally recursive on a fuel bound (the input length bounds the number
of blocks, and the loop stops at the empty list exactly as the source's
iteration over chunks does). -/
def shaBlocksGo : Nat → Digest8 → List Nat → Digest8
  | 0, st, _ => st
  | fuel + 1, st, l =>
    if l.isEmpty then st
    else shaBlocksGo fuel (processBlock st (l.take 64)) (l.drop 64)

/-- Fold the compression function over consecutive 64-byte blocks. -/
def shaBlocks (st : Digest8) (l : List Nat) : Digest8 :=
  shaBlocksGo l.length st l

/-- Embeds `compute_hash` from src/hash.rs: SHA-256 of the input bytes, first
8 digest bytes read as a big-endian `u64` (that is, digest words `h0`, `h1`). -/
def compute_hash (input : List Nat) : Nat :=
  let d := shaBlocks shaInit (shaPad input)
  d.a * w32 + d.b

/-- The base36 digit for a value `< 36`; embeds indexing into `BASE36_CHARS`. -/
def base36Digit (n : Nat) : Char :=
  if n < 10 then Char.ofNat (48 + n) else Char.ofNat (87 + n)

/-- The digit-accumulation loop of `base36_encode` (digits emitted
most-significant first, matching the push-then-reverse in the source);
structurally recursive on a fuel bound, which the initial value itself
bounds since the value shrinks by a factor of 36 each iteration. -/
def base36Aux : Nat → Nat → List Char
  | 0, _ => []
  | fuel + 1, v =>
    if v = 0 then [] else base36Aux fuel (v / 36) ++ [base36Digit (v % 36)]

/-- Embeds `base36_encode` from src/hash.rs. -/
def base36_encode (v : Nat) : List Char :=
  if v = 0 then ['0'] else base36Aux v v

/-- Embeds the public `hash` from src/hash.rs: base36-encode the digest, then
truncate to the first `length` characters or left-pad with `'0'`. -/
def hash (input : List Nat) (length : Nat) : List Char :=
  let encoded := base36_encode (compute_hash input)
  if length ≤ encoded.length then encoded.take length
  else List.replicate (length - encoded.length) '0' ++ encoded

/-! ### src/parse.rs — grammar parser and `ParsedId` operations -/

/-- Mirrors `is_base36` from src/parse.rs, which is
`char::is_ascii_alphanumeric` (note: uppercase letters are included; the
input has however already been lowercased when this test runs). -/
def is_base36 (c : Char) : Bool :=
  isAsciiDigit c || isAsciiLowerAlpha c || isAsciiUpperAlpha c

/-- Mirrors `contains_digit` from src/parse.rs. -/
def contains_digit (s : List Char) : Bool := s.any isAsciiDigit

/-- Index of the first occurrence of a character; mirrors Rust `str::find`. -/
def findCharIdx (c : Char) : List Char → Option Nat
  | [] => none
  | x :: xs => if x = c then some 0 else (findCharIdx c xs).map (· + 1)

/-- Index of the last occurrence of a character; mirrors Rust `str::rfind`. -/
def rfindCharIdx (c : Char) (l : List Char) : Option Nat :=
  match findCharIdx c l.reverse with
  | some i => some (l.length - 1 - i)
  | none => none

/-- Mirrors Rust `str::split('.')`: split at every dot, keeping empty pieces
(the result always has at least one element). -/
def splitDots : List Char → List (List Char)
  | [] => [[]]
  | c :: rest =>
    match splitDots rest with
    | [] => [[c]]
    | s :: ss => if c = '.' then [] :: s :: ss else (c :: s) :: ss

/-- Decimal digit-accumulation used by Rust's unsigned integer parser. -/
def digitsVal (l : List Char) : Nat :=
  l.foldl (fun acc c => acc * 10 + (c.toNat - 48)) 0

/-- The digit region Rust's unsigned-integer parser examines: everything
after an optional leading `'+'`. -/
def parseU32digits (s : List Char) : List Char :=
  match s with
  | c :: rest => if c = '+' then rest else s
  | [] => s

/-- Embeds Rust `str::parse::<u32>` (`u32::from_str`): an optional leading
`'+'`, then one or more decimal digits, value at most `2^32 - 1`; a leading
`'-'` and every other malformed input are rejected. -/
def parseU32 (s : List Char) : Option Nat :=
  if (parseU32digits s).isEmpty then none
  else if (parseU32digits s).all isAsciiDigit then
    if digitsVal (parseU32digits s) < 4294967296 then
      some (digitsVal (parseU32digits s))
    else none
  else none

/-- The child-segment loop of `parse_id`: parse every segment as a `u32`,
failing if any segment fails. -/
def parseChildren : List (List Char) → Option (List Nat)
  | [] => some []
  | s :: rest =>
    match parseU32 s, parseChildren rest with
    | some n, some ns => some (n :: ns)
    | _, _ => none

/-- Embeds `ParsedId` from src/parse.rs.  The Rust field `prefix` is named
`pfx` here (`prefix` is a reserved word in Lean). -/
structure ParsedId where
  pfx : List Char
  hash : List Char
  child_path : List Nat
deriving DecidableEq

/-- Decimal digit list of a `Nat`, most-significant first; mirrors Rust
`u32::to_string` (used when serializing child-path segments and the
desperate-fallback nonce). -/
def natDigitsAux (v : Nat) : List Char :=
  if v = 0 then [] else natDigitsAux (v / 10) ++ [Char.ofNat (48 + v % 10)]
termination_by v
decreasing_by exact Nat.div_lt_self (Nat.pos_of_ne_zero (by assumption)) (by omega)

/-- Decimal representation of a `Nat` (value 0 prints as `"0"`). -/
def natDigits (v : Nat) : List Char :=
  if v = 0 then ['0'] else natDigitsAux v

/-- Embeds `ParsedId::to_id_string`: `prefix`, `'-'`, hash, then each
child-path segment appended as `'.'` followed by its decimal digits. -/
def ParsedId.to_id_string (p : ParsedId) : List Char :=
  p.pfx ++ '-' :: p.hash ++ (p.child_path.map (fun n => '.' :: natDigits n)).flatten

/-- Embeds `parse_id` from src/parse.rs. -/
def parse_id (input : List Char) : Option ParsedId :=
  let id := toLower input
  let searchEnd := (findCharIdx '.' id).getD id.length
  match rfindCharIdx '-' (id.take searchEnd) with
  | none => none
  | some lastDash =>
    let pfx := id.take lastDash
    let rest := id.drop (lastDash + 1)
    match splitDots rest with
    | [] => none
    | hash :: childSegs =>
      if hash.isEmpty then none
      else if !hash.all is_base36 then none
      else if 4 ≤ hash.length && !contains_digit hash then none
      else
        match parseChildren childSegs with
        | some path => some ⟨pfx, hash, path⟩
        | none => none

/-- Embeds `ParsedId::is_child_of`: parse the candidate parent (an unparseable
candidate yields `false`), require equal prefix and hash, a strictly longer
child path, and the parent's path as an element-wise prefix. -/
def ParsedId.is_child_of (self : ParsedId) (potential_parent : List Char) : Bool :=
  match parse_id potential_parent with
  | none => false
  | some parent =>
    if self.pfx ≠ parent.pfx || self.hash ≠ parent.hash then false
    else if self.child_path.length ≤ parent.child_path.length then false
    else (self.child_path.zip parent.child_path).all (fun ab => ab.1 = ab.2)

/-! ### src/generate.rs — the multi-tier generator

`IdConfig.max_collision_prob` is an `f64` used only inside `optimal_length`'s
birthday-approximation test `p_collision < max_collision_prob`.  IEEE f64
arithmetic is outside this embedding, so that comparison is supplied to
`optimal_length` (and to `generate`) as a boolean predicate `collides` on the
candidate length; everything else is embedded directly.  The loop structure
alone guarantees the returned length never exceeds `max_hash_length`,
whatever the predicate answers. -/

/-- Embeds `IdConfig` from src/config.rs (defaults: min 3, max 8); the `f64`
field `max_collision_prob` enters only through the `collides` predicate. -/
structure IdConfig where
  pfx : List Char
  min_hash_length : Nat
  max_hash_length : Nat
deriving DecidableEq

/-- Embeds `IdGenerator::optimal_length`: scan lengths from
`min_hash_length` to `max_hash_length` inclusive and return the first one
whose collision probability is below the threshold (`collides len = false`);
if none qualifies, return `max_hash_length`. -/
def optimal_length (cfg : IdConfig) (collides : Nat → Bool) : Nat :=
  match (List.range' cfg.min_hash_length (cfg.max_hash_length + 1 - cfg.min_hash_length)).find?
      (fun len => !collides len) with
  | some l => l
  | none => cfg.max_hash_length

/-- Embeds `IdGenerator::candidate`: `{prefix}-{hash}`. -/
def candidate (cfg : IdConfig) (seed : List Nat) (hash_length : Nat) : List Char :=
  cfg.pfx ++ '-' :: hash seed hash_length

/-- Phase 1 candidates: nonces `0..=9` at the optimal length. -/
def phase1 (cfg : IdConfig) (seedFn : Nat → List Nat) (optimal : Nat) : List (List Char) :=
  (List.range 10).map (fun nonce => candidate cfg (seedFn nonce) optimal)

/-- Phase 2 candidates: for each length from `optimal + 1` to
`max_hash_length`, nonces `0..=9`. -/
def phase2 (cfg : IdConfig) (seedFn : Nat → List Nat) (optimal : Nat) : List (List Char) :=
  ((List.range' (optimal + 1) (cfg.max_hash_length - optimal)).map
    (fun len => (List.range 10).map (fun nonce => candidate cfg (seedFn nonce) len))).flatten

/-- Phase 3 candidates: 12-character hashes, nonces `0..=1000`. -/
def phase3 (cfg : IdConfig) (seedFn : Nat → List Nat) : List (List Char) :=
  (List.range 1001).map (fun nonce => candidate cfg (seedFn nonce) 12)

/-- Phase 4 candidates: one 12-character hash from `seed_fn 0` with the
literal decimal nonce appended, nonces `0..=10000`. -/
def phase4 (cfg : IdConfig) (seedFn : Nat → List Nat) : List (List Char) :=
  (List.range 10001).map
    (fun nonce => cfg.pfx ++ '-' :: (hash (seedFn 0) 12 ++ natDigits nonce))

/-- All candidates `IdGenerator::generate` tries, in order.  Each loop
iteration in the source builds one candidate and calls `exists` on it once,
returning at the first candidate reported free, so the source's four nested
loops are exactly a first-match search over this list. -/
def genCandidates (cfg : IdConfig) (seedFn : Nat → List Nat) (optimal : Nat) :
    List (List Char) :=
  phase1 cfg seedFn optimal ++ phase2 cfg seedFn optimal
    ++ phase3 cfg seedFn ++ phase4 cfg seedFn

/-- The absolute fallback returned when every candidate is reported taken:
`{prefix}-{hash}.fallback`. -/
def fallbackId (cfg : IdConfig) (seedFn : Nat → List Nat) : List Char :=
  cfg.pfx ++ '-' :: (hash (seedFn 0) 12 ++ (".fallback").toList)

/-- Embeds `IdGenerator::generate`: return the first candidate for which
`existsFn` answers `false`; if every candidate is taken, return the literal
fallback. -/
def generate (cfg : IdConfig) (collides : Nat → Bool) (seedFn : Nat → List Nat)
    (existsFn : List Char → Bool) : List Char :=
  let optimal := optimal_length cfg collides
  match (genCandidates cfg seedFn optimal).find? (fun c => !existsFn c) with
  | some c => c
  | none => fallbackId cfg seedFn

/-- Number of `existsFn` invocations `generate` performs: one per candidate
up to and including the first free one (all of them when none is free). -/
def generateExistsCalls (cfg : IdConfig) (collides : Nat → Bool)
    (seedFn : Nat → List Nat) (existsFn : List Char → Bool) : Nat :=
  let cs := genCandidates cfg seedFn (optimal_length cfg collides)
  min ((cs.takeWhile (fun c => existsFn c)).length + 1) cs.length

/-! ### src/resolve.rs — staged fuzzy resolver -/

/-- Embeds `ResolverConfig`; the Rust field `default_prefix` is named
`default_pfx` here. -/
structure ResolverConfig where
  default_pfx : List Char
  allowed_prefixes : List (List Char)
  allow_substring_match : Bool

/-- Embeds `MatchType`. -/
inductive MatchType where
  | Exact
  | PrefixNormalized
  | Substring
deriving DecidableEq

/-- Embeds `ResolvedId`. -/
structure ResolvedId where
  id : List Char
  match_type : MatchType
  original_input : List Char
deriving DecidableEq

/-- Embeds `TerseIdError` from src/error.rs. -/
inductive TerseIdError where
  | InvalidId (id : List Char)
  | PrefixMismatch (expected found : List Char)
  | AmbiguousId (part : List Char) (found : List (List Char))
  | NotFound (id : List Char)
deriving DecidableEq

/-- Embeds `IdResolver::resolve`: lowercase then trim, try the exact stage,
the prefix-normalization stage (only when the normalized input has no dash),
the substring stage (when enabled; 0 matches fall through, 1 succeeds, 2 or
more are ambiguous), else `NotFound`. -/
def resolve (cfg : ResolverConfig) (input : List Char)
    (existsFn : List Char → Bool)
    (substringMatchFn : List Char → List (List Char)) :
    Except TerseIdError ResolvedId :=
  let normalized := trim (toLower input)
  if existsFn normalized then
    Except.ok ⟨normalized, MatchType.Exact, input⟩
  else if !normalized.contains '-'
      && existsFn (cfg.default_pfx ++ '-' :: normalized) then
    Except.ok ⟨cfg.default_pfx ++ '-' :: normalized, MatchType.PrefixNormalized, input⟩
  else if cfg.allow_substring_match then
    match substringMatchFn normalized with
    | [] => Except.error (TerseIdError.NotFound normalized)
    | [m] => Except.ok ⟨m, MatchType.Substring, input⟩
    | ms => Except.error (TerseIdError.AmbiguousId normalized ms)
  else Except.error (TerseIdError.NotFound normalized)

/-- The predicate characterising exactly the `ParsedId` values `parse_id` can
produce; this is the well-formedness under which re-serialization round-trips. -/
def ValidParsedId (p : ParsedId) : Prop :=
  toLower p.pfx = p.pfx ∧ (∀ x ∈ p.pfx, x ≠ '.') ∧ p.hash ≠ [] ∧
  (∀ c ∈ p.hash, (isAsciiDigit c || isAsciiLowerAlpha c) = true) ∧
  (4 ≤ p.hash.length → contains_digit p.hash = true) ∧
  (∀ n ∈ p.child_path, n < 4294967296)

instance (p : ParsedId) : Decidable (ValidParsedId p) := by
  unfold ValidParsedId
  infer_instance

/-- Concrete generator configuration for the C4 witness scenario
(prefix `"bd"`, hash lengths pinned to 8). -/
def cfgW4 : IdConfig := ⟨("bd").toList, 8, 8⟩

/-- Seed function for the C4 witness: one byte, `0` for nonces up to 36 and
`37` beyond (a deterministic function of the nonce, chosen so that the
tier-3 candidates at nonces `0..36` coincide on one string and the nonce-37
candidate is a different one). -/
def seedW4 (n : Nat) : List Nat := if n ≤ 36 then [0] else [37]

/-- Existence oracle for the C4 witness: everything is taken except
`"bd-2uwa2j7yuael"`, which is the tier-3 candidate at nonce 37, that is,
`candidate cfgW4 (seedW4 37) 12`. -/
def existsW4 (s : List Char) : Bool := !(s == ("bd-2uwa2j7yuael").toList)

/-! ### Character-level lemmas -/

theorem charToNat_ofNat {n : Nat} (h : n < 55296) : (Char.ofNat n).toNat = n := by
  have hv : n.isValidChar := Or.inl h
  simp only [Char.ofNat, hv, dif_pos, Char.ofNatAux, Char.toNat, UInt32.toNat]
  rfl

theorem lowerChar_eq_self {c : Char} (h : isAsciiUpperAlpha c = false) :
    lowerChar c = c := by
  simp [lowerChar, h]

theorem lowerChar_toNat_of_upper {c : Char} (h : isAsciiUpperAlpha c = true) :
    (lowerChar c).toNat = c.toNat + 32 := by
  have hb : c.toNat ≤ 90 := by
    simp only [isAsciiUpperAlpha, Bool.and_eq_true, decide_eq_true_eq] at h
    exact h.2
  simp only [lowerChar, h, if_true]
  exact charToNat_ofNat (by omega)

theorem lowerChar_not_upper (c : Char) : isAsciiUpperAlpha (lowerChar c) = false := by
  cases hc : isAsciiUpperAlpha c with
  | false => rw [lowerChar_eq_self hc]; exact hc
  | true =>
    have h1 := lowerChar_toNat_of_upper hc
    have h2 : 65 ≤ c.toNat := by
      simp only [isAsciiUpperAlpha, Bool.and_eq_true, decide_eq_true_eq] at hc
      exact hc.1
    simp only [isAsciiUpperAlpha, h1, Bool.and_eq_false_iff, decide_eq_false_iff_not]
    right; omega

theorem lowerChar_idem (c : Char) : lowerChar (lowerChar c) = lowerChar c :=
  lowerChar_eq_self (lowerChar_not_upper c)

theorem toLower_idem (s : List Char) : toLower (toLower s) = toLower s := by
  simp only [toLower, List.map_map]
  exact List.map_congr_left (fun c _ => lowerChar_idem c)

theorem lowerChar_eq_self_of_digit_or_lower {c : Char}
    (h : (isAsciiDigit c || isAsciiLowerAlpha c) = true) : lowerChar c = c := by
  apply lowerChar_eq_self
  simp only [isAsciiDigit, isAsciiLowerAlpha, Bool.or_eq_true, Bool.and_eq_true,
    decide_eq_true_eq] at h
  simp only [isAsciiUpperAlpha, Bool.and_eq_false_iff, decide_eq_false_iff_not]
  omega

theorem lowerChar_eq_dot {c : Char} (h : lowerChar c = '.') : c = '.' := by
  cases hc : isAsciiUpperAlpha c with
  | false => rw [lowerChar_eq_self hc] at h; exact h
  | true =>
    have h1 := lowerChar_toNat_of_upper hc
    rw [h] at h1
    have h2 : 65 ≤ c.toNat ∧ c.toNat ≤ 90 := by
      simpa [isAsciiUpperAlpha] using hc
    simp only [show ('.').toNat = 46 from rfl] at h1
    omega

theorem lowerChar_eq_dash {c : Char} (h : lowerChar c = '-') : c = '-' := by
  cases hc : isAsciiUpperAlpha c with
  | false => rw [lowerChar_eq_self hc] at h; exact h
  | true =>
    have h1 := lowerChar_toNat_of_upper hc
    rw [h] at h1
    have h2 : 65 ≤ c.toNat ∧ c.toNat ≤ 90 := by
      simpa [isAsciiUpperAlpha] using hc
    simp only [show ('-').toNat = 45 from rfl] at h1
    omega

theorem is_base36_eq_of_not_upper {c : Char} (h : isAsciiUpperAlpha c = false) :
    is_base36 c = (isAsciiDigit c || isAsciiLowerAlpha c) := by
  simp [is_base36, h]

/-! ### Lemmas about `findCharIdx`, `rfindCharIdx`, `splitDots` -/

theorem findCharIdx_eq_none {c : Char} {l : List Char} (h : ∀ x ∈ l, x ≠ c) :
    findCharIdx c l = none := by
  induction l with
  | nil => rfl
  | cons x xs ih =>
    simp only [findCharIdx]
    rw [if_neg (h x (by simp)), ih (fun y hy => h y (by simp [hy]))]
    rfl

theorem findCharIdx_append_sep {c : Char} {l1 : List Char} (l2 : List Char)
    (h : ∀ x ∈ l1, x ≠ c) : findCharIdx c (l1 ++ c :: l2) = some l1.length := by
  induction l1 with
  | nil => simp [findCharIdx]
  | cons x xs ih =>
    simp only [List.cons_append, findCharIdx, List.append_eq]
    rw [if_neg (h x (by simp)), ih (fun y hy => h y (by simp [hy]))]
    rfl

theorem take_findCharIdx_no (c : Char) (l : List Char) :
    ∀ x ∈ l.take ((findCharIdx c l).getD l.length), x ≠ c := by
  induction l with
  | nil => simp
  | cons y ys ih =>
    by_cases hy : y = c
    · simp [findCharIdx, hy]
    · have hk : (findCharIdx c (y :: ys)).getD (y :: ys).length
          = ((findCharIdx c ys).getD ys.length) + 1 := by
        simp only [findCharIdx, if_neg hy, List.length_cons]
        cases findCharIdx c ys <;> simp
      rw [hk, List.take_succ_cons]
      intro x hx
      rcases List.mem_cons.1 hx with h | h
      · exact h ▸ hy
      · exact ih x h

theorem rfindCharIdx_eq_none {c : Char} {l : List Char} (h : ∀ x ∈ l, x ≠ c) :
    rfindCharIdx c l = none := by
  unfold rfindCharIdx
  rw [findCharIdx_eq_none (fun x hx => h x (List.mem_reverse.1 hx))]

theorem rfindCharIdx_append_sep {c : Char} (l1 : List Char) {l2 : List Char}
    (h : ∀ x ∈ l2, x ≠ c) : rfindCharIdx c (l1 ++ c :: l2) = some l1.length := by
  unfold rfindCharIdx
  have hrev : (l1 ++ c :: l2).reverse = l2.reverse ++ c :: l1.reverse := by
    simp
  rw [hrev, findCharIdx_append_sep l1.reverse
    (fun x hx => h x (List.mem_reverse.1 hx))]
  simp only [List.length_append, List.length_cons, List.length_reverse]
  congr 1
  omega

theorem rfindCharIdx_lt_length {c : Char} {l : List Char} {i : Nat}
    (h : rfindCharIdx c l = some i) : i < l.length := by
  unfold rfindCharIdx at h
  cases hf : findCharIdx c l.reverse with
  | none => rw [hf] at h; exact absurd h (by simp)
  | some j =>
    rw [hf] at h
    have hj : i = l.length - 1 - j := by
      simpa using h.symm
    have hlen : l.reverse ≠ [] := by
      intro hnil
      rw [hnil] at hf
      exact absurd hf (by simp [findCharIdx])
    have : 0 < l.length := by
      rcases List.eq_nil_or_concat l with rfl | _
      · simp at hlen
      · cases l with
        | nil => simp at hlen
        | cons _ _ => simp
    omega

theorem splitDots_cons_eq {c : Char} {rest s : List Char} {ss : List (List Char)}
    (hs : splitDots rest = s :: ss) :
    splitDots (c :: rest) = if c = '.' then [] :: s :: ss else (c :: s) :: ss := by
  unfold splitDots
  rw [hs]

theorem splitDots_ne_nil (l : List Char) : splitDots l ≠ [] := by
  induction l with
  | nil => simp [splitDots]
  | cons x xs ih =>
    cases hs : splitDots xs with
    | nil => exact absurd hs ih
    | cons s ss =>
      rw [splitDots_cons_eq hs]
      by_cases hx : x = '.' <;> simp [hx]

theorem splitDots_no_dot {a : List Char} (h : ∀ x ∈ a, x ≠ '.') :
    splitDots a = [a] := by
  induction a with
  | nil => rfl
  | cons x xs ih =>
    rw [splitDots_cons_eq (ih (fun y hy => h y (by simp [hy]))),
      if_neg (h x (by simp))]

theorem splitDots_append_sep {a : List Char} (r : List Char)
    (h : ∀ x ∈ a, x ≠ '.') : splitDots (a ++ '.' :: r) = a :: splitDots r := by
  induction a with
  | nil =>
    cases hs : splitDots r with
    | nil => exact absurd hs (splitDots_ne_nil r)
    | cons s ss =>
      rw [List.nil_append, splitDots_cons_eq hs, if_pos rfl]
  | cons x xs ih =>
    rw [List.cons_append,
      splitDots_cons_eq (ih (fun y hy => h y (by simp [hy]))),
      if_neg (h x (by simp))]

theorem mem_of_mem_splitDots {x : Char} {piece : List Char} {l : List Char}
    (hp : piece ∈ splitDots l) (hx : x ∈ piece) : x ∈ l := by
  induction l generalizing piece with
  | nil =>
    simp only [splitDots, List.mem_singleton] at hp
    subst hp
    exact absurd hx (by simp)
  | cons y ys ih =>
    cases hs : splitDots ys with
    | nil => exact absurd hs (splitDots_ne_nil ys)
    | cons s ss =>
      rw [splitDots_cons_eq hs] at hp
      by_cases hy : y = '.'
      · rw [if_pos hy] at hp
        rcases List.mem_cons.1 hp with rfl | hmem
        · exact absurd hx (by simp)
        · exact List.mem_cons_of_mem y (ih (by rw [hs]; exact hmem) hx)
      · rw [if_neg hy] at hp
        rcases List.mem_cons.1 hp with rfl | hmem
        · rcases List.mem_cons.1 hx with rfl | hxs
          · exact List.mem_cons_self x ys
          · exact List.mem_cons_of_mem y
              (ih (by rw [hs]; exact List.mem_cons_self s ss) hxs)
        · exact List.mem_cons_of_mem y
            (ih (by rw [hs]; exact List.mem_cons_of_mem s hmem) hx)

theorem splitDots_hash_path (hsh : List Char) (tail : List (List Char))
    (hh : ∀ x ∈ hsh, x ≠ '.') (ht : ∀ s ∈ tail, ∀ x ∈ s, x ≠ '.') :
    splitDots (hsh ++ (tail.map (fun s => '.' :: s)).flatten) = hsh :: tail := by
  induction tail generalizing hsh with
  | nil => simpa using splitDots_no_dot hh
  | cons t ts ih =>
    have : hsh ++ ((t :: ts).map (fun s => '.' :: s)).flatten
        = hsh ++ '.' :: (t ++ (ts.map (fun s => '.' :: s)).flatten) := by
      simp
    rw [this, splitDots_append_sep _ hh]
    have := ih t (ht t (by simp)) (fun s hs => ht s (by simp [hs]))
    rw [this]

/-! ### Structural behaviour of `parse_id` -/

theorem parse_id_toLower (input : List Char) :
    parse_id (toLower input) = parse_id input := by
  simp only [parse_id, toLower_idem]

/-- How `parse_id` behaves on an input presented in its grammatical shape
`prefix ++ "-" ++ hash ++ ".seg1.seg2..."` (with the input fixed by
lowercasing and the separators unambiguous). -/
theorem parse_id_structured (pfx hsh : List Char) (tail : List (List Char))
    (hL : toLower (pfx ++ '-' :: hsh ++ (tail.map (fun s => '.' :: s)).flatten)
        = pfx ++ '-' :: hsh ++ (tail.map (fun s => '.' :: s)).flatten)
    (hpfx : ∀ x ∈ pfx, x ≠ '.')
    (hhshDot : ∀ x ∈ hsh, x ≠ '.')
    (hhshDash : ∀ x ∈ hsh, x ≠ '-')
    (htail : ∀ s ∈ tail, ∀ x ∈ s, x ≠ '.') :
    parse_id (pfx ++ '-' :: hsh ++ (tail.map (fun s => '.' :: s)).flatten)
      = if hsh.isEmpty then none
        else if !hsh.all is_base36 then none
        else if 4 ≤ hsh.length && !contains_digit hsh then none
        else match parseChildren tail with
          | some path => some ⟨pfx, hsh, path⟩
          | none => none := by
  have hl1 : ∀ x ∈ pfx ++ '-' :: hsh, x ≠ '.' := by
    intro x hx
    rcases List.mem_append.1 hx with h | h
    · exact hpfx x h
    · rcases List.mem_cons.1 h with rfl | h
      · decide
      · exact hhshDot x h
  cases tail with
  | nil =>
    simp only [List.map_nil, List.flatten_nil, List.append_nil] at hL ⊢
    have hTake :
        (pfx ++ '-' :: hsh).take
          ((findCharIdx '.' (pfx ++ '-' :: hsh)).getD (pfx ++ '-' :: hsh).length)
          = pfx ++ '-' :: hsh := by
      rw [findCharIdx_eq_none hl1]
      simp only [Option.getD_none]
      exact List.take_length _
    simp only [parse_id, hL, hTake, rfindCharIdx_append_sep pfx hhshDash]
    have hPfx : (pfx ++ '-' :: hsh).take pfx.length = pfx := List.take_left pfx _
    have hRest : (pfx ++ '-' :: hsh).drop (pfx.length + 1) = hsh := by
      have he : pfx ++ '-' :: hsh = (pfx ++ ['-']) ++ hsh := by simp
      have hlen : (pfx ++ ['-']).length = pfx.length + 1 := by simp
      rw [he, ← hlen, List.drop_left]
    simp only [hPfx, hRest, splitDots_no_dot hhshDot, parseChildren]
  | cons t ts =>
    have hLeq : pfx ++ '-' :: hsh ++ ((t :: ts).map (fun s => '.' :: s)).flatten
        = (pfx ++ '-' :: hsh) ++ '.' :: (t ++ (ts.map (fun s => '.' :: s)).flatten) := by
      simp
    rw [hLeq] at hL ⊢
    have hTake :
        ((pfx ++ '-' :: hsh) ++ '.' :: (t ++ (ts.map (fun s => '.' :: s)).flatten)).take
          ((findCharIdx '.'
            ((pfx ++ '-' :: hsh) ++ '.' :: (t ++ (ts.map (fun s => '.' :: s)).flatten))).getD
            ((pfx ++ '-' :: hsh) ++ '.' :: (t ++ (ts.map (fun s => '.' :: s)).flatten)).length)
          = pfx ++ '-' :: hsh := by
      rw [findCharIdx_append_sep _ hl1]
      simp only [Option.getD_some]
      exact List.take_left _ _
    simp only [parse_id, hL, hTake, rfindCharIdx_append_sep pfx hhshDash]
    have hassoc : (pfx ++ '-' :: hsh) ++ '.' :: (t ++ (ts.map (fun s => '.' :: s)).flatten)
        = pfx ++ '-' :: (hsh ++ '.' :: (t ++ (ts.map (fun s => '.' :: s)).flatten)) := by
      simp
    have hPfx : ((pfx ++ '-' :: hsh) ++ '.' :: (t ++ (ts.map (fun s => '.' :: s)).flatten)).take
        pfx.length = pfx := by
      rw [hassoc]; exact List.take_left pfx _
    have hRest : ((pfx ++ '-' :: hsh) ++ '.' :: (t ++ (ts.map (fun s => '.' :: s)).flatten)).drop
        (pfx.length + 1) = hsh ++ '.' :: (t ++ (ts.map (fun s => '.' :: s)).flatten) := by
      have he : (pfx ++ '-' :: hsh) ++ '.' :: (t ++ (ts.map (fun s => '.' :: s)).flatten)
          = (pfx ++ ['-']) ++ (hsh ++ '.' :: (t ++ (ts.map (fun s => '.' :: s)).flatten)) := by
        simp
      have hlen : (pfx ++ ['-']).length = pfx.length + 1 := by simp
      rw [he, ← hlen, List.drop_left]
    have hSplit : splitDots (hsh ++ '.' :: (t ++ (ts.map (fun s => '.' :: s)).flatten))
        = hsh :: t :: ts := by
      have := splitDots_hash_path hsh (t :: ts) hhshDot htail
      simpa using this
    simp only [hPfx, hRest, hSplit]

theorem parseU32_lt {s : List Char} {n : Nat} (h : parseU32 s = some n) :
    n < 4294967296 := by
  unfold parseU32 at h
  split at h
  · exact absurd h (by simp)
  · split at h
    · split at h
      · rename_i hlt
        simp only [Option.some.injEq] at h
        omega
      · exact absurd h (by simp)
    · exact absurd h (by simp)

theorem parseChildren_lt {segs : List (List Char)} {path : List Nat}
    (h : parseChildren segs = some path) : ∀ n ∈ path, n < 4294967296 := by
  induction segs generalizing path with
  | nil =>
    simp only [parseChildren] at h
    cases h
    simp
  | cons s rest ih =>
    simp only [parseChildren] at h
    cases hu : parseU32 s with
    | none => rw [hu] at h; exact absurd h (by simp)
    | some m =>
      rw [hu] at h
      cases hr : parseChildren rest with
      | none => rw [hr] at h; exact absurd h (by simp)
      | some ms =>
        rw [hr] at h
        cases h
        intro n hn
        rcases List.mem_cons.1 hn with rfl | hn
        · exact parseU32_lt hu
        · exact ih hr n hn

theorem not_upper_of_mem_toLower {x : Char} {s : List Char} (h : x ∈ toLower s) :
    isAsciiUpperAlpha x = false := by
  rcases List.mem_map.1 h with ⟨y, _, rfl⟩
  exact lowerChar_not_upper y

theorem parse_id_sound {s : List Char} {p : ParsedId} (h : parse_id s = some p) :
    ValidParsedId p := by
  simp only [parse_id] at h
  split at h
  · exact absurd h (by simp)
  rename_i lastDash hf
  split at h
  · exact absurd h (by simp)
  rename_i hsh segs hsp
  split at h
  · exact absurd h (by simp)
  rename_i hemp
  split at h
  · exact absurd h (by simp)
  rename_i hb36
  split at h
  · exact absurd h (by simp)
  rename_i hdig
  split at h
  case h_2 => exact absurd h (by simp)
  rename_i path hpc
  simp only [Option.some.injEq] at h
  subst h
  have hb36' : hsh.all is_base36 = true := by
    by_contra hb
    exact hb36 (by simp [Bool.not_eq_true] at hb ⊢; exact hb)
  have hmemHsh : ∀ c ∈ hsh, c ∈ toLower s := by
    intro c hc
    exact List.mem_of_mem_drop (mem_of_mem_splitDots
      (hsp ▸ List.mem_cons_self hsh segs) hc)
  refine ⟨?_, ?_, ?_, ?_, ?_, ?_⟩
  · show toLower ((toLower s).take lastDash) = (toLower s).take lastDash
    have h1 : toLower ((toLower s).take lastDash)
        = (toLower (toLower s)).take lastDash := by
      simp [toLower, List.map_take]
    rw [h1, toLower_idem]
  · show ∀ x ∈ (toLower s).take lastDash, x ≠ '.'
    intro x hx
    have hlt : lastDash <
        ((toLower s).take ((findCharIdx '.' (toLower s)).getD
          (toLower s).length)).length :=
      rfindCharIdx_lt_length hf
    have hle : lastDash ≤ (findCharIdx '.' (toLower s)).getD (toLower s).length := by
      rw [List.length_take] at hlt
      omega
    have hx2 : x ∈ ((toLower s).take ((findCharIdx '.' (toLower s)).getD
        (toLower s).length)).take lastDash := by
      rw [List.take_take, min_eq_left hle]
      exact hx
    exact take_findCharIdx_no '.' (toLower s) x (List.mem_of_mem_take hx2)
  · show hsh ≠ []
    simpa [List.isEmpty_iff] using hemp
  · show ∀ c ∈ hsh, (isAsciiDigit c || isAsciiLowerAlpha c) = true
    intro c hc
    have hup : isAsciiUpperAlpha c = false :=
      not_upper_of_mem_toLower (hmemHsh c hc)
    have hb : is_base36 c = true := by
      rw [List.all_eq_true] at hb36'
      exact hb36' c hc
    rwa [is_base36_eq_of_not_upper hup] at hb
  · show 4 ≤ hsh.length → contains_digit hsh = true
    intro hlen
    by_contra hcd
    exact hdig (by simp [hlen, hcd])
  · show ∀ n ∈ path, n < 4294967296
    exact parseChildren_lt hpc

/-! ### Decimal serialization round-trips through `parseU32` -/

theorem toLower_eq_self {l : List Char} (h : ∀ x ∈ l, lowerChar x = x) :
    toLower l = l := by
  induction l with
  | nil => rfl
  | cons x xs ih =>
    have ih2 := ih (fun y hy => h y (by simp [hy]))
    simp only [toLower, List.map_cons] at ih2 ⊢
    rw [h x (by simp), ih2]

theorem natDigitsAux_all_digit (v : Nat) :
    ∀ c ∈ natDigitsAux v, isAsciiDigit c = true := by
  induction v using Nat.strong_induction_on with
  | _ v ih =>
    by_cases h0 : v = 0
    · subst h0
      rw [natDigitsAux]
      simp
    · rw [natDigitsAux, if_neg h0]
      intro c hc
      rcases List.mem_append.1 hc with h | h
      · exact ih (v / 10) (Nat.div_lt_self (Nat.pos_of_ne_zero h0) (by omega)) c h
      · rcases List.mem_singleton.1 h with rfl
        have ht : (Char.ofNat (48 + v % 10)).toNat = 48 + v % 10 :=
          charToNat_ofNat (by omega)
        simp only [isAsciiDigit, ht, Bool.and_eq_true, decide_eq_true_eq]
        omega

theorem digitsVal_natDigitsAux (v : Nat) : digitsVal (natDigitsAux v) = v := by
  induction v using Nat.strong_induction_on with
  | _ v ih =>
    by_cases h0 : v = 0
    · subst h0
      rw [natDigitsAux]
      rfl
    · rw [natDigitsAux, if_neg h0]
      have ht : (Char.ofNat (48 + v % 10)).toNat = 48 + v % 10 :=
        charToNat_ofNat (by omega)
      simp only [digitsVal, List.foldl_append, List.foldl_cons, List.foldl_nil, ht]
      have := ih (v / 10) (Nat.div_lt_self (Nat.pos_of_ne_zero h0) (by omega))
      simp only [digitsVal] at this
      rw [this]
      omega

theorem natDigits_all_digit (v : Nat) : ∀ c ∈ natDigits v, isAsciiDigit c = true := by
  unfold natDigits
  split
  · intro c hc
    rcases List.mem_singleton.1 hc with rfl
    decide
  · exact natDigitsAux_all_digit v

theorem natDigits_ne_nil (v : Nat) : natDigits v ≠ [] := by
  unfold natDigits
  split
  · simp
  · rename_i h0
    rw [natDigitsAux, if_neg h0]
    simp

theorem digitsVal_natDigits (v : Nat) : digitsVal (natDigits v) = v := by
  unfold natDigits
  split
  · rename_i h0
    subst h0
    rfl
  · exact digitsVal_natDigitsAux v

theorem parseU32_natDigits {n : Nat} (h : n < 4294967296) :
    parseU32 (natDigits n) = some n := by
  have hdigits : parseU32digits (natDigits n) = natDigits n := by
    cases hN : natDigits n with
    | nil => exact absurd hN (natDigits_ne_nil n)
    | cons c cs =>
      have hc : isAsciiDigit c = true := by
        have := natDigits_all_digit n c (by rw [hN]; simp)
        exact this
      have hplus : c ≠ '+' := by
        intro rfl_eq
        subst rfl_eq
        exact absurd hc (by decide)
      simp [parseU32digits, hplus]
  unfold parseU32
  rw [hdigits]
  rw [if_neg (by simp [List.isEmpty_iff]; exact natDigits_ne_nil n)]
  rw [if_pos (by rw [List.all_eq_true]; exact natDigits_all_digit n)]
  rw [digitsVal_natDigits]
  rw [if_pos h]

theorem parseChildren_map_natDigits {path : List Nat}
    (h : ∀ n ∈ path, n < 4294967296) :
    parseChildren (path.map natDigits) = some path := by
  induction path with
  | nil => rfl
  | cons n ns ih =>
    simp only [List.map_cons, parseChildren]
    rw [parseU32_natDigits (h n (by simp)), ih (fun m hm => h m (by simp [hm]))]

theorem digit_or_lower_ne_dot_dash {x : Char}
    (h : (isAsciiDigit x || isAsciiLowerAlpha x) = true) : x ≠ '.' ∧ x ≠ '-' := by
  constructor
  · intro he
    subst he
    exact absurd h (by decide)
  · intro he
    subst he
    exact absurd h (by decide)

theorem parse_id_roundtrip {p : ParsedId} (h : ValidParsedId p) :
    parse_id p.to_id_string = some p := by
  obtain ⟨hLow, hpfxDot, hne, hchars, hdig, hbound⟩ := h
  have hshape : p.to_id_string
      = p.pfx ++ '-' :: p.hash
        ++ ((p.child_path.map natDigits).map (fun s => '.' :: s)).flatten := by
    simp only [ParsedId.to_id_string, List.map_map]
    rfl
  have hLfix : ∀ x ∈ p.pfx ++ '-' :: p.hash
      ++ ((p.child_path.map natDigits).map (fun s => '.' :: s)).flatten,
      lowerChar x = x := by
    intro x hx
    rcases List.mem_append.1 hx with hx1 | hxflat
    · rcases List.mem_append.1 hx1 with hxp | hxh
      · have hxl : x ∈ toLower p.pfx := by rw [hLow]; exact hxp
        exact lowerChar_eq_self (not_upper_of_mem_toLower hxl)
      · rcases List.mem_cons.1 hxh with rfl | hxh
        · decide
        · exact lowerChar_eq_self_of_digit_or_lower (hchars x hxh)
    · rcases List.mem_flatten.1 hxflat with ⟨l, hl, hxl⟩
      rcases List.mem_map.1 hl with ⟨seg, hseg, rfl⟩
      rcases List.mem_cons.1 hxl with rfl | hxseg
      · decide
      · rcases List.mem_map.1 hseg with ⟨n, _, rfl⟩
        have hd := natDigits_all_digit n x hxseg
        exact lowerChar_eq_self_of_digit_or_lower (by simp [hd])
  have hhshDot : ∀ x ∈ p.hash, x ≠ '.' :=
    fun x hx => (digit_or_lower_ne_dot_dash (hchars x hx)).1
  have hhshDash : ∀ x ∈ p.hash, x ≠ '-' :=
    fun x hx => (digit_or_lower_ne_dot_dash (hchars x hx)).2
  have htail : ∀ s ∈ p.child_path.map natDigits, ∀ x ∈ s, x ≠ '.' := by
    intro s hs x hx
    rcases List.mem_map.1 hs with ⟨n, _, rfl⟩
    exact (digit_or_lower_ne_dot_dash (by simp [natDigits_all_digit n x hx])).1
  rw [hshape, parse_id_structured p.pfx p.hash (p.child_path.map natDigits)
    (toLower_eq_self hLfix) hpfxDot hhshDot hhshDash htail]
  have h1 : p.hash.isEmpty = false := by
    simp [List.isEmpty_eq_false_iff_exists_mem, List.isEmpty_iff]
    exact hne
  have h2 : p.hash.all is_base36 = true := by
    rw [List.all_eq_true]
    intro x hx
    have := hchars x hx
    simp only [is_base36, Bool.or_eq_true] at this ⊢
    tauto
  have h3 : (decide (4 ≤ p.hash.length) && !contains_digit p.hash) = false := by
    by_cases hlen : 4 ≤ p.hash.length
    · simp [hlen, hdig hlen]
    · simp [hlen]
  rw [h1, h2, h3]
  simp [parseChildren_map_natDigits hbound]

theorem toLower_fix_mem_toLower {s : List Char} : ∀ x ∈ toLower s, lowerChar x = x :=
  fun _ hx => lowerChar_eq_self (not_upper_of_mem_toLower hx)

/-! ### Claim theorems -/

/-- C1: round-trip closure.  Every `ParsedId` produced by `parse_id` is valid
(well-formed), and re-serializing any valid `ParsedId` with `to_id_string`
yields a string that `parse_id` accepts and parses back to an equal value. -/
theorem C1_round_trip :
    (∀ (s : List Char) (p : ParsedId), parse_id s = some p → ValidParsedId p) ∧
    (∀ p : ParsedId, ValidParsedId p → parse_id (ParsedId.to_id_string p) = some p) :=
  ⟨fun _ _ h => parse_id_sound h, fun _ h => parse_id_roundtrip h⟩

/-- C1 witness: the round-trip theorem applied to the concrete ID
`"bd-a7x.1"`. -/
theorem C1_round_trip_witness :
    ValidParsedId ⟨("bd").toList, ("a7x").toList, [1]⟩ ∧
    parse_id (ParsedId.to_id_string ⟨("bd").toList, ("a7x").toList, [1]⟩)
      = some ⟨("bd").toList, ("a7x").toList, [1]⟩ := by
  have hparse : parse_id (("bd-a7x.1").toList)
      = some ⟨("bd").toList, ("a7x").toList, [1]⟩ := by decide
  have hvalid := C1_round_trip.1 _ _ hparse
  exact ⟨hvalid, C1_round_trip.2 _ hvalid⟩

/-- C6 counterexample: `parse_id` accepts `"-a7x"`, producing an *empty*
prefix, and accepts `"a_b-a7x"`, whose prefix contains `'_'`, a character
outside `[a-z0-9-]` — so the claim that every accepted prefix is non-empty
with characters in `[a-z0-9-]` is false. -/
theorem C6_counterexample :
    parse_id (("-a7x").toList) = some ⟨[], ("a7x").toList, []⟩ ∧
    parse_id (("a_b-a7x").toList) = some ⟨("a_b").toList, ("a7x").toList, []⟩ := by
  constructor <;> decide

/-- C6 amended: `parse_id` does not validate prefix content.  For every
accepted input the prefix is the (lowercased) text before the last hyphen
preceding the first dot, hence contains no `'.'` and no uppercase ASCII
letter; but it may be empty and may contain arbitrary other characters. -/
theorem C6_amended_prefix (s : List Char) (p : ParsedId)
    (h : parse_id s = some p) :
    (∀ x ∈ p.pfx, x ≠ '.') ∧ (∀ x ∈ p.pfx, isAsciiUpperAlpha x = false) := by
  obtain ⟨hLow, hdot, _⟩ := parse_id_sound h
  refine ⟨hdot, fun x hx => ?_⟩
  have hx2 : x ∈ toLower p.pfx := by rw [hLow]; exact hx
  exact not_upper_of_mem_toLower hx2

/-- C6 amended witness: the amended prefix theorem applied to `"My-a7x"`. -/
theorem C6_amended_prefix_witness :
    (∀ x ∈ (ParsedId.mk (("my").toList) (("a7x").toList) []).pfx, x ≠ '.') ∧
    (∀ x ∈ (ParsedId.mk (("my").toList) (("a7x").toList) []).pfx,
      isAsciiUpperAlpha x = false) :=
  C6_amended_prefix (("My-a7x").toList) _ (by decide)

/-- C7 counterexample: `parse_id "bd-a7x.+5"` succeeds with child path `[5]`
(Rust's `u32` parser accepts an optional leading `'+'`), contradicting the
claim that a signed segment yields `InvalidId`. -/
theorem C7_counterexample :
    parse_id (("bd-a7x.+5").toList) = some ⟨("bd").toList, ("a7x").toList, [5]⟩ := by
  decide

/-- C7 amended: each dot-separated child segment is parsed with Rust `u32`
semantics — an optional leading `'+'` followed by decimal digits with value
at most `2^32 - 1`; non-numeric, `'-'`-signed, or overflowing segments yield
`InvalidId`, while a `'+'`-signed numeric segment is accepted. -/
theorem C7_amended_children (seg : List Char) (hdot : ∀ x ∈ seg, x ≠ '.') :
    parse_id (("bd-a7x.").toList ++ seg)
      = match parseU32 (toLower seg) with
        | some n => some ⟨("bd").toList, ("a7x").toList, [n]⟩
        | none => none := by
  have hdot' : ∀ x ∈ toLower seg, x ≠ '.' := by
    intro x hx heq
    subst heq
    rcases List.mem_map.1 hx with ⟨y, hy, hly⟩
    exact hdot y hy (lowerChar_eq_dot hly)
  have hshape : toLower (("bd-a7x.").toList ++ seg)
      = ("bd").toList ++ '-' :: ("a7x").toList
        ++ (([toLower seg]).map (fun s => '.' :: s)).flatten := by
    have h1 : toLower (("bd-a7x.").toList ++ seg)
        = ("bd-a7x.").toList ++ toLower seg := by
      simp only [toLower, List.map_append]
      congr 1
    rw [h1]
    simp
  have hL : toLower (("bd").toList ++ '-' :: ("a7x").toList
      ++ (([toLower seg]).map (fun s => '.' :: s)).flatten)
      = ("bd").toList ++ '-' :: ("a7x").toList
        ++ (([toLower seg]).map (fun s => '.' :: s)).flatten := by
    apply toLower_eq_self
    intro x hx
    rcases List.mem_append.1 hx with hx1 | hxflat
    · have hfix : ∀ y ∈ ("bd").toList ++ '-' :: ("a7x").toList, lowerChar y = y := by
        decide
      exact hfix x hx1
    · have hx3 : x ∈ '.' :: toLower seg := by simpa using hxflat
      rcases List.mem_cons.1 hx3 with rfl | hx2
      · decide
      · exact toLower_fix_mem_toLower x hx2
  have hmain := parse_id_structured (("bd").toList) (("a7x").toList)
    ([toLower seg]) hL (by decide) (by decide) (by decide)
    (by
      intro t ht x hx
      rcases List.mem_singleton.1 ht with rfl
      exact hdot' x hx)
  rw [← parse_id_toLower (("bd-a7x.").toList ++ seg), hshape, hmain]
  rw [if_neg (by decide), if_neg (by decide), if_neg (by decide)]
  cases hu : parseU32 (toLower seg) with
  | none => simp [parseChildren, hu]
  | some n => simp [parseChildren, hu]

/-- C7 amended witness: the amended child-segment theorem applied to the
segment `"+5"`. -/
theorem C7_amended_children_witness :
    parse_id (("bd-a7x.").toList ++ ("+5").toList)
      = match parseU32 (toLower (("+5").toList)) with
        | some n => some ⟨("bd").toList, ("a7x").toList, [n]⟩
        | none => none :=
  C7_amended_children (("+5").toList) (by decide)

/-- C10: `is_child_of` is total over arbitrary candidate-parent strings; when
`parse_id` rejects the candidate parent, it returns `false` rather than
failing. -/
theorem C10_is_child_of_total (p : ParsedId) (s : List Char)
    (h : parse_id s = none) : ParsedId.is_child_of p s = false := by
  unfold ParsedId.is_child_of
  rw [h]

/-- C10 witness: `is_child_of` on the unparseable candidate `"invalid"`. -/
theorem C10_is_child_of_total_witness :
    parse_id (("invalid").toList) = none ∧
    ParsedId.is_child_of ⟨("bd").toList, ("a7x").toList, [1]⟩
      (("invalid").toList) = false :=
  ⟨by decide, C10_is_child_of_total _ _ (by decide)⟩

/-- C2: hash validation.  For a hash-position segment (no dots, no dashes),
`parse_id "bd-" ++ h` succeeds exactly when the lowercased segment is
non-empty, every character is in `[0-9a-z]`, and a segment of length at
least 4 contains a decimal digit; concretely `"bd-test"` is rejected while
`"bd-tes3"` and `"bd-abc"` are accepted. -/
theorem C2_hash_validation :
    (∀ h : List Char, (∀ x ∈ h, x ≠ '.') → (∀ x ∈ h, x ≠ '-') →
      parse_id (("bd-").toList ++ h)
        = if toLower h ≠ [] ∧
              (∀ x ∈ toLower h, (isAsciiDigit x || isAsciiLowerAlpha x) = true) ∧
              (4 ≤ (toLower h).length → contains_digit (toLower h) = true)
          then some ⟨("bd").toList, toLower h, []⟩ else none) ∧
    parse_id (("bd-test").toList) = none ∧
    parse_id (("bd-tes3").toList) = some ⟨("bd").toList, ("tes3").toList, []⟩ ∧
    parse_id (("bd-abc").toList) = some ⟨("bd").toList, ("abc").toList, []⟩ := by
  refine ⟨?_, by decide, by decide, by decide⟩
  intro h hdot hdash
  have hdot' : ∀ x ∈ toLower h, x ≠ '.' := by
    intro x hx heq
    subst heq
    rcases List.mem_map.1 hx with ⟨y, hy, hly⟩
    exact hdot y hy (lowerChar_eq_dot hly)
  have hdash' : ∀ x ∈ toLower h, x ≠ '-' := by
    intro x hx heq
    subst heq
    rcases List.mem_map.1 hx with ⟨y, hy, hly⟩
    exact hdash y hy (lowerChar_eq_dash hly)
  have hshape : toLower (("bd-").toList ++ h)
      = ("bd").toList ++ '-' :: toLower h
        ++ (([] : List (List Char)).map (fun s => '.' :: s)).flatten := by
    have h1 : toLower (("bd-").toList ++ h) = ("bd-").toList ++ toLower h := by
      simp only [toLower, List.map_append]
      congr 1
    rw [h1]
    simp
  have hL : toLower (("bd").toList ++ '-' :: toLower h
      ++ (([] : List (List Char)).map (fun s => '.' :: s)).flatten)
      = ("bd").toList ++ '-' :: toLower h
        ++ (([] : List (List Char)).map (fun s => '.' :: s)).flatten := by
    apply toLower_eq_self
    intro x hx
    simp only [List.map_nil, List.flatten_nil, List.append_nil] at hx
    rcases List.mem_append.1 hx with hx1 | hx2
    · have hfix : ∀ y ∈ ("bd").toList, lowerChar y = y := by decide
      exact hfix x hx1
    · rcases List.mem_cons.1 hx2 with rfl | hx3
      · decide
      · exact toLower_fix_mem_toLower x hx3
  have hmain := parse_id_structured (("bd").toList) (toLower h) [] hL
    (by decide) hdot' hdash' (by intro t ht; simp at ht)
  rw [← parse_id_toLower (("bd-").toList ++ h), hshape, hmain]
  have hb36 : (toLower h).all is_base36 = true
      ↔ ∀ x ∈ toLower h, (isAsciiDigit x || isAsciiLowerAlpha x) = true := by
    rw [List.all_eq_true]
    constructor
    · intro ha x hx
      have hx1 := ha x hx
      rwa [is_base36_eq_of_not_upper (not_upper_of_mem_toLower hx)] at hx1
    · intro ha x hx
      rw [is_base36_eq_of_not_upper (not_upper_of_mem_toLower hx)]
      exact ha x hx
  by_cases hemp : (toLower h).isEmpty = true
  · rw [if_pos hemp, if_neg]
    rintro ⟨hne', _⟩
    exact hne' (by simpa [List.isEmpty_iff] using hemp)
  · rw [if_neg hemp]
    have hne : toLower h ≠ [] := by
      intro hc
      exact hemp (by simp [hc])
    by_cases hall : (toLower h).all is_base36 = true
    · rw [if_neg (show ¬((!(toLower h).all is_base36) = true) by simp [hall])]
      by_cases hdig : (decide (4 ≤ (toLower h).length)
          && !contains_digit (toLower h)) = true
      · rw [if_pos hdig, if_neg]
        rintro ⟨_, _, hd3⟩
        simp only [Bool.and_eq_true, decide_eq_true_eq, Bool.not_eq_true'] at hdig
        exact absurd (hd3 hdig.1) (by simp [hdig.2])
      · rw [if_neg hdig]
        have hd : 4 ≤ (toLower h).length → contains_digit (toLower h) = true := by
          intro hlen
          by_contra hc
          exact hdig (by simp [hlen, hc])
        simp only [parseChildren]
        rw [if_pos ⟨hne, hb36.1 hall, hd⟩]
    · have hallf : (toLower h).all is_base36 = false := by
        simpa using hall
      rw [if_pos (by simp [hallf]), if_neg]
      rintro ⟨_, h2, _⟩
      exact absurd (hb36.2 h2) (by simp [hallf])

/-- C2 witness: the hash-validation theorem applied to the segment
`"a7x"`. -/
theorem C2_hash_validation_witness :
    parse_id (("bd-").toList ++ ("a7x").toList)
      = if toLower (("a7x").toList) ≠ [] ∧
            (∀ x ∈ toLower (("a7x").toList),
              (isAsciiDigit x || isAsciiLowerAlpha x) = true) ∧
            (4 ≤ (toLower (("a7x").toList)).length
              → contains_digit (toLower (("a7x").toList)) = true)
        then some ⟨("bd").toList, toLower (("a7x").toList), []⟩ else none :=
  C2_hash_validation.1 (("a7x").toList) (by decide) (by decide)

/-- C3: resolver staging and precedence.  `resolve` lowercases then trims the
input; success of `existsFn` on the normalized string yields an `Exact` match
carrying the normalized id, whatever the later stages would say; otherwise,
only when the normalized input has no dash, `defaultPrefix ++ "-" ++
normalized` is tested and success yields a `PrefixNormalized` match (ahead of
any substring match); every successful result carries the original input
unmodified. -/
theorem C3_resolver_staging :
    (∀ (cfg : ResolverConfig) (input : List Char) (existsFn : List Char → Bool)
        (subFn : List Char → List (List Char)),
      existsFn (trim (toLower input)) = true →
      resolve cfg input existsFn subFn
        = Except.ok ⟨trim (toLower input), MatchType.Exact, input⟩) ∧
    (∀ (cfg : ResolverConfig) (input : List Char) (existsFn : List Char → Bool)
        (subFn : List Char → List (List Char)),
      existsFn (trim (toLower input)) = false →
      (trim (toLower input)).contains '-' = false →
      existsFn (cfg.default_pfx ++ '-' :: trim (toLower input)) = true →
      resolve cfg input existsFn subFn
        = Except.ok ⟨cfg.default_pfx ++ '-' :: trim (toLower input),
            MatchType.PrefixNormalized, input⟩) ∧
    (∀ (cfg : ResolverConfig) (input : List Char) (existsFn : List Char → Bool)
        (subFn : List Char → List (List Char)) (r : ResolvedId),
      resolve cfg input existsFn subFn = Except.ok r → r.original_input = input) ∧
    (∀ (cfg : ResolverConfig) (input : List Char) (existsFn : List Char → Bool)
        (subFn : List Char → List (List Char)) (r : ResolvedId),
      (trim (toLower input)).contains '-' = true →
      resolve cfg input existsFn subFn = Except.ok r →
      r.match_type ≠ MatchType.PrefixNormalized) := by
  refine ⟨?_, ?_, ?_, ?_⟩
  · intro cfg input existsFn subFn hex
    simp only [resolve]
    rw [if_pos hex]
  · intro cfg input existsFn subFn hex hdash hpfx
    simp only [resolve]
    have hcond2 : (!(trim (toLower input)).contains '-'
        && existsFn (cfg.default_pfx ++ '-' :: trim (toLower input))) = true := by
      rw [hdash, hpfx]
      rfl
    rw [if_neg (by rw [hex]; simp), if_pos hcond2]
  · intro cfg input existsFn subFn r hr
    simp only [resolve] at hr
    split at hr
    · cases hr; rfl
    · split at hr
      · cases hr; rfl
      · split at hr
        · split at hr
          · exact absurd hr (by simp)
          · cases hr; rfl
          · exact absurd hr (by simp)
        · exact absurd hr (by simp)
  · intro cfg input existsFn subFn r hdash hr
    simp only [resolve] at hr
    split at hr
    · cases hr
      simp
    · split at hr
      · rename_i hcond
        rw [hdash] at hcond
        exact absurd hcond (by simp)
      · split at hr
        · split at hr
          · exact absurd hr (by simp)
          · cases hr
            simp
          · exact absurd hr (by simp)
        · exact absurd hr (by simp)

/-- C3 witness: the staging theorem at the spec's concrete scenario
`resolve "A7X"` with an oracle accepting only `"bd-a7x"`. -/
theorem C3_resolver_staging_witness :
    resolve ⟨("bd").toList, [], true⟩ (("A7X").toList)
        (fun s => s == ("bd-a7x").toList) (fun _ => [])
      = Except.ok ⟨(ResolverConfig.mk (("bd").toList) [] true).default_pfx
          ++ '-' :: trim (toLower (("A7X").toList)),
          MatchType.PrefixNormalized, ("A7X").toList⟩ :=
  C3_resolver_staging.2.1 ⟨("bd").toList, [], true⟩ (("A7X").toList)
    (fun s => s == ("bd-a7x").toList) (fun _ => [])
    (by decide) (by decide) (by decide)

/-- C8: resolver failure behaviour.  When both exists-based stages fail:
zero substring results (or substring matching disabled) yield
`NotFound{normalized}`; two or more results yield `AmbiguousId` carrying
exactly the caller's list in the caller's order; and the concrete scenario
`resolve "a7"` with two candidates fails with
`AmbiguousId{"a7", ["bd-a7x","bd-a7y"]}`. -/
theorem C8_resolver_failures :
    (∀ (cfg : ResolverConfig) (input : List Char) (existsFn : List Char → Bool)
        (subFn : List Char → List (List Char)),
      existsFn (trim (toLower input)) = false →
      ((trim (toLower input)).contains '-' = false →
        existsFn (cfg.default_pfx ++ '-' :: trim (toLower input)) = false) →
      cfg.allow_substring_match = true →
      subFn (trim (toLower input)) = [] →
      resolve cfg input existsFn subFn
        = Except.error (TerseIdError.NotFound (trim (toLower input)))) ∧
    (∀ (cfg : ResolverConfig) (input : List Char) (existsFn : List Char → Bool)
        (subFn : List Char → List (List Char)) (m1 m2 : List Char)
        (ms : List (List Char)),
      existsFn (trim (toLower input)) = false →
      ((trim (toLower input)).contains '-' = false →
        existsFn (cfg.default_pfx ++ '-' :: trim (toLower input)) = false) →
      cfg.allow_substring_match = true →
      subFn (trim (toLower input)) = m1 :: m2 :: ms →
      resolve cfg input existsFn subFn
        = Except.error (TerseIdError.AmbiguousId (trim (toLower input))
            (m1 :: m2 :: ms))) ∧
    (∀ (cfg : ResolverConfig) (input : List Char) (existsFn : List Char → Bool)
        (subFn : List Char → List (List Char)),
      existsFn (trim (toLower input)) = false →
      ((trim (toLower input)).contains '-' = false →
        existsFn (cfg.default_pfx ++ '-' :: trim (toLower input)) = false) →
      cfg.allow_substring_match = false →
      resolve cfg input existsFn subFn
        = Except.error (TerseIdError.NotFound (trim (toLower input)))) ∧
    resolve ⟨("bd").toList, [], true⟩ (("a7").toList) (fun _ => false)
        (fun _ => [("bd-a7x").toList, ("bd-a7y").toList])
      = Except.error (TerseIdError.AmbiguousId (("a7").toList)
          [("bd-a7x").toList, ("bd-a7y").toList]) := by
  refine ⟨?_, ?_, ?_, by rfl⟩
  · intro cfg input existsFn subFn hex himp hallow hsub
    simp only [resolve]
    have hcond : (!(trim (toLower input)).contains '-'
        && existsFn (cfg.default_pfx ++ '-' :: trim (toLower input))) = false := by
      cases hc : (trim (toLower input)).contains '-' with
      | true => simp
      | false => simp [himp hc]
    rw [if_neg (by rw [hex]; simp), if_neg (by rw [hcond]; simp), if_pos hallow,
      hsub]
  · intro cfg input existsFn subFn m1 m2 ms hex himp hallow hsub
    simp only [resolve]
    have hcond : (!(trim (toLower input)).contains '-'
        && existsFn (cfg.default_pfx ++ '-' :: trim (toLower input))) = false := by
      cases hc : (trim (toLower input)).contains '-' with
      | true => simp
      | false => simp [himp hc]
    rw [if_neg (by rw [hex]; simp), if_neg (by rw [hcond]; simp), if_pos hallow,
      hsub]
  · intro cfg input existsFn subFn hex himp hallow
    simp only [resolve]
    have hcond : (!(trim (toLower input)).contains '-'
        && existsFn (cfg.default_pfx ++ '-' :: trim (toLower input))) = false := by
      cases hc : (trim (toLower input)).contains '-' with
      | true => simp
      | false => simp [himp hc]
    rw [if_neg (by rw [hex]; simp), if_neg (by rw [hcond]; simp),
      if_neg (by rw [hallow]; simp)]

/-- C8 witness: the failure theorem's `NotFound` branch at a concrete
scenario where all oracles answer negatively. -/
theorem C8_resolver_failures_witness :
    resolve ⟨("bd").toList, [], true⟩ (("zz").toList) (fun _ => false)
        (fun _ => [])
      = Except.error (TerseIdError.NotFound (trim (toLower (("zz").toList)))) :=
  C8_resolver_failures.1 ⟨("bd").toList, [], true⟩ (("zz").toList)
    (fun _ => false) (fun _ => []) (by decide) (fun _ => by decide)
    (by decide) (by decide)

/-! ### Lemmas about the base36 codec and the generator -/

theorem base36Digit_b36l : ∀ n, n < 36 →
    (isAsciiDigit (base36Digit n) || isAsciiLowerAlpha (base36Digit n)) = true := by
  decide

theorem base36Aux_chars (fuel v : Nat) :
    ∀ c ∈ base36Aux fuel v, (isAsciiDigit c || isAsciiLowerAlpha c) = true := by
  induction fuel generalizing v with
  | zero => simp [base36Aux]
  | succ fuel ih =>
    simp only [base36Aux]
    by_cases h0 : v = 0
    · rw [if_pos h0]
      simp
    · rw [if_neg h0]
      intro c hc
      rcases List.mem_append.1 hc with h | h
      · exact ih (v / 36) c h
      · rcases List.mem_singleton.1 h with rfl
        exact base36Digit_b36l (v % 36) (Nat.mod_lt v (by omega))

theorem base36_encode_chars (v : Nat) :
    ∀ c ∈ base36_encode v, (isAsciiDigit c || isAsciiLowerAlpha c) = true := by
  unfold base36_encode
  split
  · intro c hc
    rcases List.mem_singleton.1 hc with rfl
    decide
  · exact base36Aux_chars v v

theorem hash_length (seed : List Nat) (len : Nat) : (hash seed len).length = len := by
  simp only [hash]
  split
  · rename_i h
    rw [List.length_take]
    omega
  · rename_i h
    simp only [List.length_append, List.length_replicate]
    omega

/-- C5: hash output shape.  For every seed and `length ∈ [1,100]`,
`hash seed length` has exactly `length` characters, each in `[0-9a-z]`;
when the base36 encoding of the digest is at least `length` long the result
is its first `length` (most-significant) characters, otherwise the encoding
is left-padded with `'0'` to exactly `length` characters; `hash` is total. -/
theorem C5_hash_shape (seed : List Nat) (len : Nat) (h1 : 1 ≤ len)
    (h2 : len ≤ 100) :
    (hash seed len).length = len ∧
    (∀ c ∈ hash seed len, (isAsciiDigit c || isAsciiLowerAlpha c) = true) ∧
    (len ≤ (base36_encode (compute_hash seed)).length →
      hash seed len = (base36_encode (compute_hash seed)).take len) ∧
    ((base36_encode (compute_hash seed)).length < len →
      hash seed len
        = List.replicate (len - (base36_encode (compute_hash seed)).length) '0'
          ++ base36_encode (compute_hash seed)) := by
  simp only [hash]
  by_cases hc : len ≤ (base36_encode (compute_hash seed)).length
  · rw [if_pos hc]
    refine ⟨?_, ?_, fun _ => rfl, fun hlt => absurd hc (by omega)⟩
    · rw [List.length_take]
      omega
    · intro c hcm
      exact base36_encode_chars _ c (List.mem_of_mem_take hcm)
  · rw [if_neg hc]
    push_neg at hc
    refine ⟨?_, ?_, fun hle => absurd hle (by omega), fun _ => rfl⟩
    · simp only [List.length_append, List.length_replicate]
      omega
    · intro c hcm
      rcases List.mem_append.1 hcm with hrep | henc
      · rcases List.eq_of_mem_replicate hrep with rfl
        decide
      · exact base36_encode_chars _ c henc

/-- C5 witness: the hash-shape theorem at the seed bytes of `"hello"` and
length 5. -/
theorem C5_hash_shape_witness :
    (hash [104, 101, 108, 108, 111] 5).length = 5 ∧
    (∀ c ∈ hash [104, 101, 108, 108, 111] 5,
      (isAsciiDigit c || isAsciiLowerAlpha c) = true) ∧
    (5 ≤ (base36_encode (compute_hash [104, 101, 108, 108, 111])).length →
      hash [104, 101, 108, 108, 111] 5
        = (base36_encode (compute_hash [104, 101, 108, 108, 111])).take 5) ∧
    ((base36_encode (compute_hash [104, 101, 108, 108, 111])).length < 5 →
      hash [104, 101, 108, 108, 111] 5
        = List.replicate
            (5 - (base36_encode (compute_hash [104, 101, 108, 108, 111])).length)
            '0' ++ base36_encode (compute_hash [104, 101, 108, 108, 111])) :=
  C5_hash_shape [104, 101, 108, 108, 111] 5 (by decide) (by decide)

theorem sum_map_const_ten {α : Type} (l : List α) :
    (l.map (fun _ => (10 : Nat))).sum = 10 * l.length := by
  induction l with
  | nil => rfl
  | cons x xs ih =>
    simp only [List.map_cons, List.sum_cons, ih, List.length_cons]
    ring

theorem genCandidates_length (cfg : IdConfig) (seedFn : Nat → List Nat)
    (optimal : Nat) :
    (genCandidates cfg seedFn optimal).length
      = 10 + 10 * (cfg.max_hash_length - optimal) + 1001 + 10001 := by
  simp only [genCandidates, phase1, phase2, phase3, phase4, List.length_append,
    List.length_map, List.length_range, List.length_flatten, List.map_map]
  have h2 : (List.map (List.length ∘ fun len =>
      (List.range 10).map (fun nonce => candidate cfg (seedFn nonce) len))
      (List.range' (optimal + 1) (cfg.max_hash_length - optimal))).sum
      = 10 * (cfg.max_hash_length - optimal) := by
    have he : (List.map (List.length ∘ fun len =>
        (List.range 10).map (fun nonce => candidate cfg (seedFn nonce) len))
        (List.range' (optimal + 1) (cfg.max_hash_length - optimal)))
        = (List.range' (optimal + 1) (cfg.max_hash_length - optimal)).map
            (fun _ => (10 : Nat)) := by
      apply List.map_congr_left
      intro len _
      simp
    rw [he, sum_map_const_ten, List.length_range']
  rw [h2]

/-- C9: generator totality and bounded work.  `generate` always returns a
string — either one of its candidates or the literal
`prefix ++ "-" ++ hash ++ ".fallback"` — and invokes `existsFn` at most
`10 + 10*(max_hash_length − optimal_length) + 1001 + 10001` times. -/
theorem C9_generate_total_bounded (cfg : IdConfig) (collides : Nat → Bool)
    (seedFn : Nat → List Nat) (existsFn : List Char → Bool) :
    generateExistsCalls cfg collides seedFn existsFn
      ≤ 10 + 10 * (cfg.max_hash_length - optimal_length cfg collides)
        + 1001 + 10001 ∧
    (generate cfg collides seedFn existsFn
        ∈ genCandidates cfg seedFn (optimal_length cfg collides) ∨
      generate cfg collides seedFn existsFn = fallbackId cfg seedFn) := by
  constructor
  · rw [← genCandidates_length cfg seedFn (optimal_length cfg collides)]
    simp only [generateExistsCalls]
    exact min_le_right _ _
  · simp only [generate]
    cases hf : (genCandidates cfg seedFn (optimal_length cfg collides)).find?
        (fun c => !existsFn c) with
    | some c =>
      left
      exact List.mem_of_find?_eq_some hf
    | none =>
      right
      rfl

/-- C4: generator tier order.  When `existsFn` reports every tier-1 and
tier-2 candidate taken, and in tier 3 reports the candidates at nonces
`0..36` taken but the 12-character candidate built from `seedFn 37` free,
`generate` returns exactly that tier-3 candidate and does not fall through
to tier 4 or the final fallback. -/
theorem C4_generate_tier3 (cfg : IdConfig) (collides : Nat → Bool)
    (seedFn : Nat → List Nat) (existsFn : List Char → Bool)
    (h12 : ∀ c ∈ phase1 cfg seedFn (optimal_length cfg collides)
        ++ phase2 cfg seedFn (optimal_length cfg collides), existsFn c = true)
    (h3a : ∀ n, n ≤ 36 → existsFn (candidate cfg (seedFn n) 12) = true)
    (h3b : existsFn (candidate cfg (seedFn 37) 12) = false) :
    generate cfg collides seedFn existsFn = candidate cfg (seedFn 37) 12 := by
  have hsplit : phase3 cfg seedFn
      = (List.range' 0 37 1).map (fun nonce => candidate cfg (seedFn nonce) 12)
        ++ candidate cfg (seedFn 37) 12
          :: (List.range' 38 963 1).map
              (fun nonce => candidate cfg (seedFn nonce) 12) := by
    unfold phase3
    rw [List.range_eq_range']
    have hr1 : List.range' 0 1001 1 = List.range' 0 37 1 ++ List.range' 37 964 1 := by
      have h := List.range'_append 0 37 964 1
      norm_num at h
      exact h.symm
    have hr2 : List.range' 37 964 1 = 37 :: List.range' 38 963 1 := by
      have h := List.range'_succ 37 963 1
      norm_num at h ⊢
      exact h
    rw [hr1, hr2, List.map_append, List.map_cons]
  have e1 : (phase1 cfg seedFn (optimal_length cfg collides)).find?
      (fun c => !existsFn c) = none := by
    rw [List.find?_eq_none]
    intro x hx
    simp [h12 x (List.mem_append_left _ hx)]
  have e2 : (phase2 cfg seedFn (optimal_length cfg collides)).find?
      (fun c => !existsFn c) = none := by
    rw [List.find?_eq_none]
    intro x hx
    simp [h12 x (List.mem_append_right _ hx)]
  have e3 : ((List.range' 0 37 1).map
      (fun nonce => candidate cfg (seedFn nonce) 12)).find?
      (fun c => !existsFn c) = none := by
    rw [List.find?_eq_none]
    intro x hx
    rcases List.mem_map.1 hx with ⟨n, hn, rfl⟩
    rcases List.mem_range'.1 hn with ⟨i, hi, rfl⟩
    have hi2 : (0 + 1 * i : Nat) = i := by omega
    rw [hi2]
    simp [h3a i (by omega)]
  simp only [generate, genCandidates, hsplit, List.find?_append, e1, e2, e3,
    Option.none_or]
  rw [List.find?_cons_of_pos _ (by simp [h3b])]
  rfl

set_option maxRecDepth 100000 in
set_option maxHeartbeats 4000000 in
/-- C4 witness: the tier-order theorem in a concrete scenario where the
only free candidate is the tier-3 one at nonce 37. -/
theorem C4_generate_tier3_witness :
    (∀ c ∈ phase1 cfgW4 seedW4 (optimal_length cfgW4 (fun _ => false))
        ++ phase2 cfgW4 seedW4 (optimal_length cfgW4 (fun _ => false)),
      existsW4 c = true) ∧
    (∀ n, n ≤ 36 → existsW4 (candidate cfgW4 (seedW4 n) 12) = true) ∧
    existsW4 (candidate cfgW4 (seedW4 37) 12) = false ∧
    generate cfgW4 (fun _ => false) seedW4 existsW4
      = candidate cfgW4 (seedW4 37) 12 := by
  have h12 : ∀ c ∈ phase1 cfgW4 seedW4 (optimal_length cfgW4 (fun _ => false))
      ++ phase2 cfgW4 seedW4 (optimal_length cfgW4 (fun _ => false)),
      existsW4 c = true := by
    intro c hc
    have hp2 : phase2 cfgW4 seedW4 (optimal_length cfgW4 (fun _ => false)) = [] :=
      rfl
    rw [hp2, List.append_nil] at hc
    rcases List.mem_map.1 hc with ⟨n, _, rfl⟩
    have hlen : (candidate cfgW4 (seedW4 n) (optimal_length cfgW4 (fun _ => false))).length
        = 11 := by
      simp only [candidate, List.length_append, List.length_cons, hash_length]
      rfl
    have hneq : candidate cfgW4 (seedW4 n) (optimal_length cfgW4 (fun _ => false))
        ≠ ("bd-2uwa2j7yuael").toList := by
      intro he
      have hl := congrArg List.length he
      rw [hlen] at hl
      exact absurd hl (by decide)
    simp only [existsW4, Bool.not_eq_true']
    exact beq_eq_false_iff_ne.2 hneq
  have h3a : ∀ n, n ≤ 36 → existsW4 (candidate cfgW4 (seedW4 n) 12) = true := by
    intro n hn
    have hs : seedW4 n = [0] := by simp [seedW4, hn]
    rw [hs]
    decide
  have h3b : existsW4 (candidate cfgW4 (seedW4 37) 12) = false := by decide
  exact ⟨h12, h3a, h3b,
    C4_generate_tier3 cfgW4 (fun _ => false) seedW4 existsW4 h12 h3a h3b⟩

end TerseId
